import Mathlib

/-!
Verification of the Fasty RSVP reading engine (src/app.js).

Words and texts are modelled as `List Char`; every JS string operation used by
the engine (trim, split, regex replace of whitespace runs, regex match of
sentences) is translated into an executable Lean function on `List Char`.
The playback/timing state machine is modelled as a record `AppState` with an
explicit single pending-timer slot; timer callbacks are run by `fireTimer`.
-/

namespace Fasty

/-- ASCII alphanumeric test, the character class `[a-zA-Z0-9]` used by
`calculateORP` in src/app.js. -/
def isAlnum (c : Char) : Bool :=
  c.isAlpha || c.isDigit

/-- Sentence-terminating punctuation, the character class `[.!?]`. -/
def isTerm (c : Char) : Bool :=
  c = '.' || c = '!' || c = '?'

/-- The characters matched by the JavaScript regex class `\s` (and trimmed by
`String.prototype.trim`): ASCII whitespace plus the Unicode space characters. -/
def jsWsChars : List Char :=
  [' ', '\t', '\n', '\r', Char.ofNat 11, Char.ofNat 12,
   Char.ofNat 0xa0, Char.ofNat 0x1680,
   Char.ofNat 0x2000, Char.ofNat 0x2001, Char.ofNat 0x2002, Char.ofNat 0x2003,
   Char.ofNat 0x2004, Char.ofNat 0x2005, Char.ofNat 0x2006, Char.ofNat 0x2007,
   Char.ofNat 0x2008, Char.ofNat 0x2009, Char.ofNat 0x200a,
   Char.ofNat 0x2028, Char.ofNat 0x2029, Char.ofNat 0x202f,
   Char.ofNat 0x205f, Char.ofNat 0x3000, Char.ofNat 0xfeff]

def isJsWs (c : Char) : Bool :=
  c ∈ jsWsChars

/-- `String.prototype.trim`: drop whitespace from both ends. -/
def trimJs (l : List Char) : List Char :=
  ((l.dropWhile isJsWs).reverse.dropWhile isJsWs).reverse

/-- Prepend a character onto the first piece of a split result. -/
def consHead (c : Char) : List (List Char) → List (List Char)
  | [] => [[c]]
  | h :: t => (c :: h) :: t

/-- Split a character list at every occurrence of the separator character,
as JavaScript `String.prototype.split` with a single-character separator does
(empty pieces are kept). -/
def splitOnChar (sep : Char) : List Char → List (List Char)
  | [] => [[]]
  | c :: rest =>
    if c = sep then [] :: splitOnChar sep rest
    else consHead c (splitOnChar sep rest)

/-- The JS replacement `replace(/\s+/g, ' ')`: every maximal run of whitespace
becomes a single space.  The boolean argument records whether the previous
character was part of a whitespace run (in which case further whitespace
contributes nothing). -/
def collapseWsAux : Bool → List Char → List Char
  | _, [] => []
  | inRun, c :: rest =>
    if isJsWs c then
      if inRun then collapseWsAux true rest
      else ' ' :: collapseWsAux true rest
    else c :: collapseWsAux false rest

def collapseWs (l : List Char) : List Char :=
  collapseWsAux false l

/-- First normalization pass of `parseText`: `replace(/\r\n/g, '\n')`. -/
def replaceCRLF : List Char → List Char
  | [] => []
  | [c] => [c]
  | c :: d :: rest =>
    if c = '\r' && d = '\n' then '\n' :: replaceCRLF rest
    else c :: replaceCRLF (d :: rest)

/-- Second normalization pass of `parseText`: `replace(/\r/g, '\n')`. -/
def replaceCR (l : List Char) : List Char :=
  l.map fun c => if c = '\r' then '\n' else c

def normalizeNewlines (l : List Char) : List Char :=
  replaceCR (replaceCRLF l)

/-- `extractWords` from src/app.js: replace newlines with spaces, collapse
whitespace runs to single spaces, trim, split on single spaces, and discard
empty tokens. -/
def extractWords (text : List Char) : List (List Char) :=
  let t := collapseWs (text.map fun c => if c = '\n' then ' ' else c)
  let t := trimJs t
  (splitOnChar ' ' t).filter fun w => w.length > 0

/-- A paragraph of the parsed text model, as built by `parseText`. -/
structure Paragraph where
  index : Nat
  text : List Char
  words : List (List Char)
  startWordIndex : Nat
deriving DecidableEq, Repr, Inhabited

/-- The `paragraphs.forEach` running-sum pass of `parseText` that assigns
absolute word offsets. -/
def assignStarts (acc : Nat) : List Paragraph → List Paragraph
  | [] => []
  | p :: rest =>
    { p with startWordIndex := acc } :: assignStarts (acc + p.words.length) rest

/-- `parseText` from src/app.js, as a pure function: returns the paragraph
list, the flattened word list, and the success flag `words.length > 0`. -/
def parseTextPure (text : List Char) :
    List Paragraph × List (List Char) × Bool :=
  let text := normalizeNewlines text
  let lines := ((splitOnChar '\n' text).map trimJs).filter fun p => p.length > 0
  let ps0 := lines.enum.map fun ip =>
    { index := ip.1, text := ip.2, words := extractWords ip.2,
      startWordIndex := 0 : Paragraph }
  let ps := assignStarts 0 ps0
  let ws := (ps.map Paragraph.words).flatten
  (ps, ws, ws.length > 0)

/-- `calculateORP` from src/app.js: look up a fixation offset from the length
of the word with all non-alphanumeric characters stripped, then add the count
of leading non-alphanumeric characters of the original word. -/
def calculateORP (word : List Char) : Nat :=
  let cleanWord := word.filter isAlnum
  let length := cleanWord.length
  let orpIndex : Nat :=
    if length ≤ 1 then 0
    else if length ≤ 2 then 0
    else if length ≤ 3 then 1
    else if length ≤ 5 then 1
    else if length ≤ 9 then 2
    else if length ≤ 13 then 3
    else 4
  let leadingPunctuation := (word.takeWhile fun c => !isAlnum c).length
  leadingPunctuation + orpIndex

/-- The renderable (before, focus, after) split of a word. -/
structure Split where
  before : List Char
  focus : List Char
  after : List Char
deriving DecidableEq, Repr, Inhabited

/-- `splitWordAtORP` from src/app.js. JS `charAt` yields a one-character
string, or the empty string when the index is past the end; `take 1` of the
dropped suffix models exactly that. -/
def splitWordAtORP (word : List Char) : Split :=
  let orpIndex := calculateORP word
  { before := word.take orpIndex
    focus := (word.drop orpIndex).take 1
    after := word.drop (orpIndex + 1) }

/-! ### ORP lemmas (C3, C5, C9) -/

/-- The fixation-offset table as the specification states it: offset 0 for
clean lengths 0–2, 1 for 3–5, 2 for 6–9, 3 for 10–13, 4 for length ≥ 14. -/
def specOrpOffset (cleanLength : Nat) : Nat :=
  if cleanLength ≤ 2 then 0
  else if cleanLength ≤ 5 then 1
  else if cleanLength ≤ 9 then 2
  else if cleanLength ≤ 13 then 3
  else 4

/-- The count of leading non-alphanumeric characters of a word: the length of
the contiguous run from position 0 until the first ASCII letter or digit. -/
def leadingNonAlnum (word : List Char) : Nat :=
  (word.takeWhile fun c => !isAlnum c).length

theorem calculateORP_eq_table (w : List Char) :
    calculateORP w = leadingNonAlnum w + specOrpOffset (w.filter isAlnum).length := by
  unfold calculateORP specOrpOffset leadingNonAlnum
  simp only [Nat.add_left_cancel_iff]
  split_ifs <;> omega

theorem leadingNonAlnum_add_clean_le (w : List Char) :
    leadingNonAlnum w + (w.filter isAlnum).length ≤ w.length := by
  induction w with
  | nil => simp [leadingNonAlnum]
  | cons c rest ih =>
    unfold leadingNonAlnum at ih ⊢
    have hfil := List.length_filter_le isAlnum rest
    by_cases h : isAlnum c = true
    · simp [List.takeWhile_cons, List.filter_cons, h]
      omega
    · simp only [Bool.not_eq_true] at h
      simp [List.takeWhile_cons, List.filter_cons, h]
      omega

theorem specOrpOffset_le (n : Nat) : specOrpOffset n ≤ n := by
  unfold specOrpOffset
  split_ifs <;> omega

theorem calculateORP_le_length (w : List Char) : calculateORP w ≤ w.length := by
  rw [calculateORP_eq_table]
  calc leadingNonAlnum w + specOrpOffset (w.filter isAlnum).length
      ≤ leadingNonAlnum w + (w.filter isAlnum).length :=
        Nat.add_le_add_left (specOrpOffset_le _) _
    _ ≤ w.length := leadingNonAlnum_add_clean_le w

/-- C3: `calculateORP(W)` equals the count of leading non-alphanumeric
characters of `W` plus the offset determined by the length of `W` with all
non-alphanumeric characters stripped (0 for clean lengths 0–2, 1 for 3–5,
2 for 6–9, 3 for 10–13, 4 for ≥ 14), and the table checks
`calculateORP("I")=0`, `calculateORP("to")=0`, `calculateORP("cat")=1`,
`calculateORP("world")=1`, `calculateORP("reading")=2`,
`calculateORP("information")=3`, `calculateORP("\"Hello")=2` all hold. -/
theorem claim_C3_orp_formula :
    (∀ w : List Char,
        calculateORP w = leadingNonAlnum w + specOrpOffset (w.filter isAlnum).length) ∧
    calculateORP "I".toList = 0 ∧
    calculateORP "to".toList = 0 ∧
    calculateORP "cat".toList = 1 ∧
    calculateORP "world".toList = 1 ∧
    calculateORP "reading".toList = 2 ∧
    calculateORP "information".toList = 3 ∧
    calculateORP "\"Hello".toList = 2 :=
  ⟨calculateORP_eq_table, by decide, by decide, by decide, by decide,
   by decide, by decide, by decide⟩

/-- C5: `splitWordAtORP(W)` decomposes `W` exactly at the ORP index:
`before ++ focus ++ after = W`, with `before` the prefix of length
`calculateORP W`, `focus` the single character at that index (empty when the
index is past the end of `W`), and `after` the rest.  The function is a pure
function of its argument by construction. -/
theorem claim_C5_split_roundtrip (w : List Char) :
    (splitWordAtORP w).before ++ (splitWordAtORP w).focus ++ (splitWordAtORP w).after = w ∧
    (splitWordAtORP w).before = w.take (calculateORP w) ∧
    (splitWordAtORP w).focus = (w.drop (calculateORP w)).take 1 ∧
    (splitWordAtORP w).after = w.drop (calculateORP w + 1) ∧
    (splitWordAtORP w).focus.length ≤ 1 := by
  refine ⟨?_, rfl, rfl, rfl, ?_⟩
  · show w.take (calculateORP w) ++ (w.drop (calculateORP w)).take 1
        ++ w.drop (calculateORP w + 1) = w
    have hdrop : w.drop (calculateORP w + 1)
        = (w.drop (calculateORP w)).drop 1 := by
      rw [List.drop_drop]
    rw [hdrop, List.append_assoc, List.take_append_drop, List.take_append_drop]
  · show ((w.drop (calculateORP w)).take 1).length ≤ 1
    simp [List.length_take]

/-- C9: `calculateORP` is deterministic (equal inputs give equal results) and
its result always lies in `[0, length W]`, including for words made entirely
of non-alphanumeric characters. -/
theorem claim_C9_orp_bounds :
    (∀ w v : List Char, w = v → calculateORP w = calculateORP v) ∧
    (∀ w : List Char, calculateORP w ≤ w.length) :=
  ⟨fun _ _ h => by rw [h], calculateORP_le_length⟩

/-! ### Segmentation lemmas (C2) -/

theorem assignStarts_map_words (acc : Nat) (ps : List Paragraph) :
    (assignStarts acc ps).map Paragraph.words = ps.map Paragraph.words := by
  induction ps generalizing acc with
  | nil => rfl
  | cons p rest ih => simp [assignStarts, ih]

theorem assignStarts_length (acc : Nat) (ps : List Paragraph) :
    (assignStarts acc ps).length = ps.length := by
  induction ps generalizing acc with
  | nil => rfl
  | cons p rest ih => simp [assignStarts, ih]

theorem assignStarts_getD_start (acc : Nat) (ps : List Paragraph) (i : Nat)
    (h : i < ps.length) :
    ((assignStarts acc ps).getD i default).startWordIndex
      = acc + (((ps.take i).map fun p => p.words.length).sum) := by
  induction ps generalizing acc i with
  | nil => simp at h
  | cons p rest ih =>
    cases i with
    | zero => simp [assignStarts]
    | succ j =>
      simp only [assignStarts, List.getD_cons_succ, List.take_succ_cons,
        List.map_cons, List.sum_cons]
      rw [ih (acc + p.words.length) j (by simpa using h)]
      omega

/-- The word lists of the paragraphs produced by `assignStarts` agree with the
input, so word-count sums over prefixes agree as well. -/
theorem assignStarts_take_sum (acc : Nat) (ps : List Paragraph) (i : Nat) :
    ((((assignStarts acc ps).take i).map fun p => p.words.length).sum)
      = (((ps.take i).map fun p => p.words.length).sum) := by
  have h1 : ((assignStarts acc ps).map fun p => p.words.length)
      = ps.map fun p => p.words.length := by
    have := assignStarts_map_words acc ps
    have h2 : ((assignStarts acc ps).map Paragraph.words).map List.length
        = (ps.map Paragraph.words).map List.length := by rw [this]
    simpa [List.map_map, Function.comp] using h2
  rw [List.map_take, List.map_take, h1]

/-- In `parseTextPure`, the startWordIndex of paragraph `i` is the sum of the
word counts of the paragraphs before it. -/
theorem parseTextPure_start_eq_sum (text : List Char) (i : Nat)
    (h : i < (parseTextPure text).1.length) :
    (((parseTextPure text).1.getD i default).startWordIndex)
      = ((((parseTextPure text).1.take i).map fun p => p.words.length).sum) := by
  unfold parseTextPure at h ⊢
  simp only at h ⊢
  rw [assignStarts_getD_start _ _ i (by rwa [assignStarts_length] at h),
    assignStarts_take_sum]
  omega

/-- C2 (amended): paragraphs are produced in source order with
`startWordIndex` of paragraph `i` equal to the sum of the word counts of
paragraphs `0..i-1`, and the flattened global word sequence is the
concatenation of the paragraphs' word lists; on
`"Hello world.\nSecond line here."` this yields 2 paragraphs with
`startWordIndex` 0 and 2, and a flattened word count of 5. -/
theorem claim_C2_segmentation (text : List Char) (i : Nat)
    (h : i < (parseTextPure text).1.length) :
    ((((parseTextPure text).1.getD i default).startWordIndex)
      = ((((parseTextPure text).1.take i).map fun p => p.words.length).sum)) ∧
    (parseTextPure text).2.1 = ((parseTextPure text).1.map Paragraph.words).flatten ∧
    (parseTextPure "Hello world.\nSecond line here.".toList).1.length = 2 ∧
    ((parseTextPure "Hello world.\nSecond line here.".toList).1.getD 0 default).startWordIndex
      = 0 ∧
    ((parseTextPure "Hello world.\nSecond line here.".toList).1.getD 1 default).startWordIndex
      = 2 ∧
    (parseTextPure "Hello world.\nSecond line here.".toList).2.1.length = 5 :=
  ⟨parseTextPure_start_eq_sum text i h, rfl, by decide, by decide, by decide, by decide⟩

/-- Witness for C2: the invariant instantiated at the spec's example text and
paragraph index 1. -/
theorem claim_C2_segmentation_witness :
    1 < (parseTextPure "Hello world.\nSecond line here.".toList).1.length ∧
    ((((parseTextPure "Hello world.\nSecond line here.".toList).1.getD 1 default).startWordIndex)
      = ((((parseTextPure "Hello world.\nSecond line here.".toList).1.take 1).map
          fun p => p.words.length).sum)) :=
  ⟨by decide,
   (claim_C2_segmentation "Hello world.\nSecond line here.".toList 1 (by decide)).1⟩

/-- Counterexample to C2 as stated: the spec's example claims a flattened word
count of 4, but `"Hello world.\nSecond line here."` parses into 5 words
(`Hello`, `world.`, `Second`, `line`, `here.`). -/
theorem claim_C2_count_counterexample :
    (parseTextPure "Hello world.\nSecond line here.".toList).2.1.length = 5 ∧
    (parseTextPure "Hello world.\nSecond line here.".toList).2.1.length ≠ 4 := by
  constructor
  · decide
  · decide

/-! ### The playback state machine -/

/-- The status texts the engine can show, one constructor per `updateStatus`
call site in src/app.js. -/
inductive Msg where
  | pastePrompt      -- "Paste text and click here or press Space"
  | clickStartPrompt -- "Click here or press Space to start"
  | startPrompt      -- "Paste text and press Space to start" (startReading)
  | pausedPrompt     -- "Paused · Press Space to continue"
  | paragraphBreakMsg -- "End of paragraph · Press Space to continue"
  | endOfTextMsg     -- "Done · Edit text or press Space to restart"
deriving DecidableEq, Repr

/-- A displayed status: the message plus the `paragraph-break` styling flag. -/
structure Status where
  msg : Msg
  isBreak : Bool
deriving DecidableEq, Repr

/-- The single outstanding timer.  `baseSentence` is `intervalId` armed with
the callback that blanks the display and chains the sentence pause;
`baseNormal` is `intervalId` armed with the plain advance callback;
`sentenceGap` is `sentencePauseTimeoutId`.  The rational records the delay in
milliseconds the timer was armed with. -/
inductive Pending where
  | baseSentence (delay : ℚ)
  | baseNormal (delay : ℚ)
  | sentenceGap (delay : ℚ)
deriving DecidableEq, Repr

/-- The blank display (`clearWordDisplay`): all three spans empty. -/
def blankSplit : Split := { before := [], focus := [], after := [] }

/-- The engine state of `FastyApp`: the parsed model, position, mode flags,
configuration, the pending timer, and the rendered display/status. -/
structure AppState where
  words : List (List Char)
  paragraphs : List Paragraph
  currentWordIndex : Nat
  currentParagraphIndex : Nat
  isPlaying : Bool
  isPaused : Bool
  hasStarted : Bool
  wpm : Nat
  sentencePause : Nat
  pending : Option Pending
  display : Split
  status : Option Status
deriving DecidableEq, Repr

/-- The state after the constructor and `init()` (wpm/pause defaults as in the
class fields). -/
def initState : AppState :=
  { words := [], paragraphs := [], currentWordIndex := 0,
    currentParagraphIndex := 0, isPlaying := false, isPaused := false,
    hasStarted := false, wpm := 300, sentencePause := 200, pending := none,
    display := blankSplit, status := some { msg := Msg.pastePrompt, isBreak := false } }

/-- `isSentenceEnd` from src/app.js: the word's last character is `.`, `!` or
`?`, or is a closing quote directly preceded by one of those. -/
def isSentenceEnd (w : List Char) : Bool :=
  match w.reverse with
  | [] => false
  | c :: rest =>
    isTerm c ||
      ((c = '"' || c = Char.ofNat 39) &&
        match rest with
        | [] => false
        | d :: _ => isTerm d)

/-- `updateStatus`. -/
def updateStatus (s : AppState) (m : Msg) (brk : Bool) : AppState :=
  { s with status := some { msg := m, isBreak := brk } }

/-- `hideStatus`. -/
def hideStatus (s : AppState) : AppState :=
  { s with status := none }

/-- `displayCurrentWord`: out of range is a no-op, otherwise render the ORP
split of the current word. -/
def displayCurrentWord (s : AppState) : AppState :=
  if s.words.length ≤ s.currentWordIndex then s
  else { s with display := splitWordAtORP (s.words.getD s.currentWordIndex []) }

/-- `pause` from src/app.js: clear the mode flags, cancel both timers, and
show the paused status when a word is still pending display. -/
def pause (s : AppState) : AppState :=
  let s := { s with isPlaying := false, isPaused := true, pending := none }
  if s.hasStarted && s.currentWordIndex < s.words.length
  then updateStatus s Msg.pausedPrompt false
  else s

/-- `scheduleNextWord` from src/app.js: no-op unless playing; otherwise arm
`intervalId` for `60000 / wpm` milliseconds, choosing the sentence-pause
callback when the current word ends a sentence and `sentencePause > 0`. -/
def scheduleNextWord (s : AppState) : AppState :=
  if !s.isPlaying then s
  else
    let baseInterval : ℚ := 60000 / (s.wpm : ℚ)
    let currentWord := s.words.getD s.currentWordIndex []
    let needsSentencePause := decide (0 < s.sentencePause) && isSentenceEnd currentWord
    if needsSentencePause then
      { s with pending := some (Pending.baseSentence baseInterval) }
    else
      { s with pending := some (Pending.baseNormal baseInterval) }

/-- `play` from src/app.js. -/
def play (s : AppState) : AppState :=
  if s.isPlaying || s.words.length ≤ s.currentWordIndex then s
  else
    scheduleNextWord
      (hideStatus { s with isPlaying := true, isPaused := false })

/-- `advanceWord` from src/app.js: increment the index; at the current
paragraph's end boundary pause and show the break/end-of-text status,
otherwise display the new word and re-arm the timer. -/
def advanceWord (s : AppState) : AppState :=
  let s := { s with currentWordIndex := s.currentWordIndex + 1 }
  let cp := s.paragraphs.getD s.currentParagraphIndex default
  let paragraphEndIndex := cp.startWordIndex + cp.words.length
  if paragraphEndIndex ≤ s.currentWordIndex then
    let s := pause s
    if s.currentParagraphIndex < s.paragraphs.length - 1
    then updateStatus s Msg.paragraphBreakMsg true
    else updateStatus s Msg.endOfTextMsg true
  else
    scheduleNextWord (displayCurrentWord s)

/-- Firing the outstanding timer: the timeout is consumed, and its callback
runs behind the `if (!this.isPlaying) return` guard.  The `baseSentence`
callback blanks the display and arms `sentencePauseTimeoutId` for
`sentencePause` milliseconds; the other callbacks advance. -/
def fireTimer (s : AppState) : AppState :=
  match s.pending with
  | none => s
  | some t =>
    let s := { s with pending := none }
    if !s.isPlaying then s
    else
      match t with
      | Pending.baseSentence _ =>
          { s with display := blankSplit,
                   pending := some (Pending.sentenceGap (s.sentencePause : ℚ)) }
      | Pending.baseNormal _ => advanceWord s
      | Pending.sentenceGap _ => advanceWord s

/-- `startReading` from src/app.js, with the textarea contents passed in. -/
def startReading (s : AppState) (text : List Char) : AppState :=
  if trimJs text = [] then updateStatus s Msg.startPrompt false
  else
    let parsed := parseTextPure text
    let s := { s with paragraphs := parsed.1, words := parsed.2.1 }
    if !parsed.2.2 then s
    else
      let s := { s with currentWordIndex := 0, currentParagraphIndex := 0,
                        hasStarted := true }
      play (displayCurrentWord s)

/-- `continueAfterParagraph` from src/app.js. -/
def continueAfterParagraph (s : AppState) : AppState :=
  let s :=
    if s.paragraphs.length - 1 ≤ s.currentParagraphIndex
        && s.words.length ≤ s.currentWordIndex then
      { s with currentWordIndex := 0, currentParagraphIndex := 0 }
    else
      let s := { s with currentParagraphIndex := s.currentParagraphIndex + 1 }
      if s.currentParagraphIndex < s.paragraphs.length then
        { s with currentWordIndex :=
            (s.paragraphs.getD s.currentParagraphIndex default).startWordIndex }
      else s
  play (displayCurrentWord s)

/-- `restartCurrentParagraph` from src/app.js. -/
def restartCurrentParagraph (s : AppState) : AppState :=
  let s := { s with currentWordIndex :=
      (s.paragraphs.getD s.currentParagraphIndex default).startWordIndex }
  play (displayCurrentWord s)

/-- `navigatePrev` from src/app.js (the step-backward arrow). -/
def navigatePrev (s : AppState) : AppState :=
  if s.hasStarted && 0 < s.currentWordIndex then
    let s := pause s
    let s := { s with currentWordIndex := s.currentWordIndex - 1 }
    updateStatus (displayCurrentWord s) Msg.pausedPrompt false
  else s

/-- `navigateNext` from src/app.js (the step-forward arrow). -/
def navigateNext (s : AppState) : AppState :=
  if s.hasStarted && s.currentWordIndex < s.words.length - 1 then
    let s := pause s
    let s := { s with currentWordIndex := s.currentWordIndex + 1 }
    updateStatus (displayCurrentWord s) Msg.pausedPrompt false
  else s

/-- `handleReaderClick` (the unified activation gesture; the Space key handler
has the same body), with the textarea contents passed in for the not-started
branch. -/
def handleReaderClick (s : AppState) (text : List Char) : AppState :=
  if !s.hasStarted then startReading s text
  else if s.isPaused then
    let cp := s.paragraphs.getD s.currentParagraphIndex default
    if cp.startWordIndex + cp.words.length ≤ s.currentWordIndex
    then continueAfterParagraph s
    else play s
  else pause s

/-- `onWpmChange` from src/app.js: store the new rate and, when playing,
pause and immediately play again. -/
def onWpmChange (s : AppState) (newWpm : Nat) : AppState :=
  let s := { s with wpm := newWpm }
  if s.isPlaying then play (pause s) else s

/-- `onPauseChange` from src/app.js. -/
def onPauseChange (s : AppState) (newPause : Nat) : AppState :=
  { s with sentencePause := newPause }

/-! ### Projection lemmas for the state operations -/

theorem updateStatus_proj (s : AppState) (m : Msg) (b : Bool) :
    updateStatus s m b = { s with status := some { msg := m, isBreak := b } } := rfl

@[simp] theorem pause_words (s : AppState) : (pause s).words = s.words := by
  simp only [pause, updateStatus]; split_ifs <;> rfl

@[simp] theorem pause_paragraphs (s : AppState) :
    (pause s).paragraphs = s.paragraphs := by
  simp only [pause, updateStatus]; split_ifs <;> rfl

@[simp] theorem pause_currentWordIndex (s : AppState) :
    (pause s).currentWordIndex = s.currentWordIndex := by
  simp only [pause, updateStatus]; split_ifs <;> rfl

@[simp] theorem pause_currentParagraphIndex (s : AppState) :
    (pause s).currentParagraphIndex = s.currentParagraphIndex := by
  simp only [pause, updateStatus]; split_ifs <;> rfl

@[simp] theorem pause_isPlaying (s : AppState) : (pause s).isPlaying = false := by
  simp only [pause, updateStatus]; split_ifs <;> rfl

@[simp] theorem pause_isPaused (s : AppState) : (pause s).isPaused = true := by
  simp only [pause, updateStatus]; split_ifs <;> rfl

@[simp] theorem pause_hasStarted (s : AppState) :
    (pause s).hasStarted = s.hasStarted := by
  simp only [pause, updateStatus]; split_ifs <;> rfl

@[simp] theorem pause_wpm (s : AppState) : (pause s).wpm = s.wpm := by
  simp only [pause, updateStatus]; split_ifs <;> rfl

@[simp] theorem pause_sentencePause (s : AppState) :
    (pause s).sentencePause = s.sentencePause := by
  simp only [pause, updateStatus]; split_ifs <;> rfl

@[simp] theorem pause_pending (s : AppState) : (pause s).pending = none := by
  simp only [pause, updateStatus]; split_ifs <;> rfl

@[simp] theorem pause_display (s : AppState) : (pause s).display = s.display := by
  simp only [pause, updateStatus]; split_ifs <;> rfl

theorem pause_status (s : AppState) :
    (pause s).status = if s.hasStarted && s.currentWordIndex < s.words.length
      then some { msg := Msg.pausedPrompt, isBreak := false } else s.status := by
  simp only [pause, updateStatus]; split_ifs <;> rfl

@[simp] theorem displayCurrentWord_words (s : AppState) :
    (displayCurrentWord s).words = s.words := by
  simp only [displayCurrentWord]; split_ifs <;> rfl

@[simp] theorem displayCurrentWord_paragraphs (s : AppState) :
    (displayCurrentWord s).paragraphs = s.paragraphs := by
  simp only [displayCurrentWord]; split_ifs <;> rfl

@[simp] theorem displayCurrentWord_currentWordIndex (s : AppState) :
    (displayCurrentWord s).currentWordIndex = s.currentWordIndex := by
  simp only [displayCurrentWord]; split_ifs <;> rfl

@[simp] theorem displayCurrentWord_currentParagraphIndex (s : AppState) :
    (displayCurrentWord s).currentParagraphIndex = s.currentParagraphIndex := by
  simp only [displayCurrentWord]; split_ifs <;> rfl

@[simp] theorem displayCurrentWord_isPlaying (s : AppState) :
    (displayCurrentWord s).isPlaying = s.isPlaying := by
  simp only [displayCurrentWord]; split_ifs <;> rfl

@[simp] theorem displayCurrentWord_isPaused (s : AppState) :
    (displayCurrentWord s).isPaused = s.isPaused := by
  simp only [displayCurrentWord]; split_ifs <;> rfl

@[simp] theorem displayCurrentWord_hasStarted (s : AppState) :
    (displayCurrentWord s).hasStarted = s.hasStarted := by
  simp only [displayCurrentWord]; split_ifs <;> rfl

@[simp] theorem displayCurrentWord_wpm (s : AppState) :
    (displayCurrentWord s).wpm = s.wpm := by
  simp only [displayCurrentWord]; split_ifs <;> rfl

@[simp] theorem displayCurrentWord_sentencePause (s : AppState) :
    (displayCurrentWord s).sentencePause = s.sentencePause := by
  simp only [displayCurrentWord]; split_ifs <;> rfl

@[simp] theorem displayCurrentWord_pending (s : AppState) :
    (displayCurrentWord s).pending = s.pending := by
  simp only [displayCurrentWord]; split_ifs <;> rfl

@[simp] theorem displayCurrentWord_status (s : AppState) :
    (displayCurrentWord s).status = s.status := by
  simp only [displayCurrentWord]; split_ifs <;> rfl

theorem displayCurrentWord_display (s : AppState) :
    (displayCurrentWord s).display =
      if s.words.length ≤ s.currentWordIndex then s.display
      else splitWordAtORP (s.words.getD s.currentWordIndex []) := by
  simp only [displayCurrentWord]; split_ifs <;> rfl

@[simp] theorem scheduleNextWord_words (s : AppState) :
    (scheduleNextWord s).words = s.words := by
  simp only [scheduleNextWord]; split_ifs <;> rfl

@[simp] theorem scheduleNextWord_paragraphs (s : AppState) :
    (scheduleNextWord s).paragraphs = s.paragraphs := by
  simp only [scheduleNextWord]; split_ifs <;> rfl

@[simp] theorem scheduleNextWord_currentWordIndex (s : AppState) :
    (scheduleNextWord s).currentWordIndex = s.currentWordIndex := by
  simp only [scheduleNextWord]; split_ifs <;> rfl

@[simp] theorem scheduleNextWord_currentParagraphIndex (s : AppState) :
    (scheduleNextWord s).currentParagraphIndex = s.currentParagraphIndex := by
  simp only [scheduleNextWord]; split_ifs <;> rfl

@[simp] theorem scheduleNextWord_isPlaying (s : AppState) :
    (scheduleNextWord s).isPlaying = s.isPlaying := by
  simp only [scheduleNextWord]; split_ifs <;> rfl

@[simp] theorem scheduleNextWord_isPaused (s : AppState) :
    (scheduleNextWord s).isPaused = s.isPaused := by
  simp only [scheduleNextWord]; split_ifs <;> rfl

@[simp] theorem scheduleNextWord_hasStarted (s : AppState) :
    (scheduleNextWord s).hasStarted = s.hasStarted := by
  simp only [scheduleNextWord]; split_ifs <;> rfl

@[simp] theorem scheduleNextWord_wpm (s : AppState) :
    (scheduleNextWord s).wpm = s.wpm := by
  simp only [scheduleNextWord]; split_ifs <;> rfl

@[simp] theorem scheduleNextWord_sentencePause (s : AppState) :
    (scheduleNextWord s).sentencePause = s.sentencePause := by
  simp only [scheduleNextWord]; split_ifs <;> rfl

@[simp] theorem scheduleNextWord_display (s : AppState) :
    (scheduleNextWord s).display = s.display := by
  simp only [scheduleNextWord]; split_ifs <;> rfl

@[simp] theorem scheduleNextWord_status (s : AppState) :
    (scheduleNextWord s).status = s.status := by
  simp only [scheduleNextWord]; split_ifs <;> rfl

theorem scheduleNextWord_eq_of_playing (s : AppState) (h : s.isPlaying = true) :
    scheduleNextWord s =
      { s with
        pending :=
          some (if decide (0 < s.sentencePause)
                  && isSentenceEnd (s.words.getD s.currentWordIndex [])
                then Pending.baseSentence (60000 / (s.wpm : ℚ))
                else Pending.baseNormal (60000 / (s.wpm : ℚ))) } := by
  unfold scheduleNextWord
  rw [h]
  simp only [Bool.not_true, Bool.false_eq_true, if_false]
  split_ifs with hn <;> rfl

@[simp] theorem advanceWord_currentWordIndex (s : AppState) :
    (advanceWord s).currentWordIndex = s.currentWordIndex + 1 := by
  simp only [advanceWord, updateStatus_proj]
  split_ifs <;> simp

@[simp] theorem advanceWord_words (s : AppState) :
    (advanceWord s).words = s.words := by
  simp only [advanceWord, updateStatus_proj]
  split_ifs <;> simp

@[simp] theorem advanceWord_paragraphs (s : AppState) :
    (advanceWord s).paragraphs = s.paragraphs := by
  simp only [advanceWord, updateStatus_proj]
  split_ifs <;> simp

@[simp] theorem advanceWord_currentParagraphIndex (s : AppState) :
    (advanceWord s).currentParagraphIndex = s.currentParagraphIndex := by
  simp only [advanceWord, updateStatus_proj]
  split_ifs <;> simp

@[simp] theorem advanceWord_hasStarted (s : AppState) :
    (advanceWord s).hasStarted = s.hasStarted := by
  simp only [advanceWord, updateStatus_proj]
  split_ifs <;> simp

@[simp] theorem advanceWord_wpm (s : AppState) : (advanceWord s).wpm = s.wpm := by
  simp only [advanceWord, updateStatus_proj]
  split_ifs <;> simp

@[simp] theorem advanceWord_sentencePause (s : AppState) :
    (advanceWord s).sentencePause = s.sentencePause := by
  simp only [advanceWord, updateStatus_proj]
  split_ifs <;> simp

/-! ### Membership preservation through the text pipeline (for C6) -/

theorem mem_dropWhile_of_not (p : Char → Bool) (l : List Char) (c : Char)
    (hc : c ∈ l) (hp : p c = false) : c ∈ l.dropWhile p := by
  induction l with
  | nil => simp at hc
  | cons d rest ih =>
    rw [List.dropWhile_cons]
    rcases List.mem_cons.mp hc with h | h
    · subst h; simp [hp]
    · split_ifs with hd
      · exact ih h
      · exact List.mem_cons_of_mem _ h

theorem mem_trimJs (l : List Char) (c : Char) (hc : c ∈ l)
    (hw : isJsWs c = false) : c ∈ trimJs l := by
  unfold trimJs
  rw [List.mem_reverse]
  apply mem_dropWhile_of_not _ _ _ _ hw
  rw [List.mem_reverse]
  exact mem_dropWhile_of_not _ _ _ hc hw

theorem trimJs_eq_nil_of_all_ws (l : List Char) (h : ∀ c ∈ l, isJsWs c = true) :
    trimJs l = [] := by
  unfold trimJs
  have h1 : l.dropWhile isJsWs = [] := by
    induction l with
    | nil => rfl
    | cons d rest ih =>
      rw [List.dropWhile_cons, if_pos (h d (List.mem_cons_self d rest))]
      exact ih fun c hc => h c (List.mem_cons_of_mem _ hc)
  rw [h1]
  rfl

theorem splitOnChar_ne_nil (sep : Char) (l : List Char) :
    splitOnChar sep l ≠ [] := by
  cases l with
  | nil => simp [splitOnChar]
  | cons c rest =>
    unfold splitOnChar
    split_ifs
    · simp
    · rcases h : splitOnChar sep rest with _ | ⟨hd, tl⟩ <;> simp [consHead]

theorem mem_splitOnChar (sep : Char) (l : List Char) (c : Char)
    (hc : c ∈ l) (hne : c ≠ sep) : ∃ piece ∈ splitOnChar sep l, c ∈ piece := by
  induction l with
  | nil => simp at hc
  | cons d rest ih =>
    unfold splitOnChar
    by_cases hd : d = sep
    · rw [if_pos hd]
      rcases List.mem_cons.mp hc with h | h
      · exact absurd (h.trans hd) hne
      · rcases ih h with ⟨piece, hpmem, hcmem⟩
        exact ⟨piece, List.mem_cons_of_mem _ hpmem, hcmem⟩
    · rw [if_neg hd]
      rcases hr : splitOnChar sep rest with _ | ⟨h0, t0⟩
      · exact absurd hr (splitOnChar_ne_nil sep rest)
      · rcases List.mem_cons.mp hc with h | h
        · subst h
          exact ⟨c :: h0, List.mem_cons_self _ _, List.mem_cons_self _ _⟩
        · rcases ih h with ⟨piece, hpmem, hcmem⟩
          rw [hr] at hpmem
          rcases List.mem_cons.mp hpmem with hph | hph
          · subst hph
            exact ⟨d :: piece, List.mem_cons_self _ _, List.mem_cons_of_mem _ hcmem⟩
          · exact ⟨piece, List.mem_cons_of_mem _ hph, hcmem⟩

theorem mem_collapseWsAux (l : List Char) (c : Char) (hw : isJsWs c = false) :
    ∀ b, c ∈ l → c ∈ collapseWsAux b l := by
  induction l with
  | nil => intro b h; simp at h
  | cons d rest ih =>
    intro b hc
    unfold collapseWsAux
    rcases List.mem_cons.mp hc with h | h
    · subst h
      rw [if_neg (by simp [hw])]
      exact List.mem_cons_self _ _
    · split_ifs with h1 h2
      · exact ih true h
      · exact List.mem_cons_of_mem _ (ih true h)
      · exact List.mem_cons_of_mem _ (ih false h)

theorem mem_replaceCRLF (l : List Char) (c : Char) (hc : c ∈ l)
    (hne : c ≠ '\r') : c ∈ replaceCRLF l := by
  induction l using replaceCRLF.induct with
  | case1 =>
    simp at hc
  | case2 d =>
    simpa [replaceCRLF] using hc
  | case3 a b rest hab ih =>
    rw [replaceCRLF, if_pos hab]
    simp only [Bool.and_eq_true, decide_eq_true_eq] at hab
    rcases List.mem_cons.mp hc with h | h
    · exact absurd (h.trans hab.1) hne
    · rcases List.mem_cons.mp h with h' | h'
      · subst h'
        rw [hab.2]
        exact List.mem_cons_self _ _
      · exact List.mem_cons_of_mem _ (ih h')
  | case4 a b rest hab ih =>
    rw [replaceCRLF, if_neg hab]
    rcases List.mem_cons.mp hc with h | h
    · subst h
      exact List.mem_cons_self _ _
    · exact List.mem_cons_of_mem _ (ih h)

theorem mem_normalizeNewlines (l : List Char) (c : Char) (hc : c ∈ l)
    (hne : c ≠ '\r') : c ∈ normalizeNewlines l := by
  unfold normalizeNewlines replaceCR
  have h1 := mem_replaceCRLF l c hc hne
  exact List.mem_map.mpr ⟨c, h1, by rw [if_neg hne]⟩

/-- A text with a non-whitespace character yields at least one word. -/
theorem extractWords_ne_nil (t : List Char) (c : Char) (hc : c ∈ t)
    (hw : isJsWs c = false) : extractWords t ≠ [] := by
  unfold extractWords
  intro hnil
  have hcn : c ≠ '\n' := by
    intro h; subst h; simp [isJsWs, jsWsChars] at hw
  have h1 : c ∈ (t.map fun d => if d = '\n' then ' ' else d) :=
    List.mem_map.mpr ⟨c, hc, by rw [if_neg hcn]⟩
  have h2 : c ∈ collapseWs (t.map fun d => if d = '\n' then ' ' else d) :=
    mem_collapseWsAux _ c hw false h1
  have h3 := mem_trimJs _ c h2 hw
  have hcsp : c ≠ ' ' := by
    intro h; subst h; simp [isJsWs, jsWsChars] at hw
  rcases mem_splitOnChar ' ' _ c h3 hcsp with ⟨piece, hpmem, hcmem⟩
  have hplen : piece.length > 0 := List.length_pos.mpr (by rintro rfl; simp at hcmem)
  have : piece ∈ ([] : List (List Char)) := by
    rw [← hnil]
    exact List.mem_filter.mpr ⟨hpmem, by simpa using hplen⟩
  simp at this

theorem parseTextPure_words_map (text : List Char) :
    (parseTextPure text).1.map Paragraph.words
      = (((splitOnChar '\n' (normalizeNewlines text)).map trimJs).filter
          fun p => p.length > 0).map extractWords := by
  unfold parseTextPure
  simp only
  rw [assignStarts_map_words, List.map_map]
  have : ∀ L : List (List Char),
      (L.enum.map fun ip =>
        ({ index := ip.1, text := ip.2, words := extractWords ip.2,
           startWordIndex := 0 : Paragraph })).map Paragraph.words
      = L.map extractWords := by
    intro L
    rw [List.map_map]
    have h2 : (Paragraph.words ∘ fun ip : Nat × List Char =>
        ({ index := ip.1, text := ip.2, words := extractWords ip.2,
           startWordIndex := 0 : Paragraph })) = fun ip => extractWords ip.2 := rfl
    rw [h2]
    have h3 : (fun ip : Nat × List Char => extractWords ip.2)
        = extractWords ∘ Prod.snd := rfl
    rw [h3, ← List.map_map, List.enum_map_snd]
  rw [← List.map_map]
  exact this _

/-- If the input has a non-whitespace character, parsing yields at least one
word. -/
theorem parseTextPure_words_ne_nil (text : List Char) (c : Char) (hc : c ∈ text)
    (hw : isJsWs c = false) : (parseTextPure text).2.1 ≠ [] := by
  have hcr : c ≠ '\r' := by
    intro h; subst h; simp [isJsWs, jsWsChars] at hw
  have hcn : c ≠ '\n' := by
    intro h; subst h; simp [isJsWs, jsWsChars] at hw
  have h1 := mem_normalizeNewlines text c hc hcr
  rcases mem_splitOnChar '\n' _ c h1 hcn with ⟨line, hlmem, hcmem⟩
  have h2 : c ∈ trimJs line := mem_trimJs line c hcmem hw
  have h3 : trimJs line ∈ ((splitOnChar '\n' (normalizeNewlines text)).map trimJs).filter
      fun p => p.length > 0 := by
    refine List.mem_filter.mpr ⟨List.mem_map.mpr ⟨line, hlmem, rfl⟩, ?_⟩
    simpa using List.length_pos.mpr (by rintro h; rw [h] at h2; simp at h2)
  have h4 : extractWords (trimJs line) ≠ [] := extractWords_ne_nil _ c h2 hw
  intro hnil
  have h5 : (parseTextPure text).2.1
      = ((parseTextPure text).1.map Paragraph.words).flatten := rfl
  rw [h5, parseTextPure_words_map] at hnil
  rw [List.flatten_eq_nil_iff] at hnil
  exact h4 (hnil _ (List.mem_map.mpr ⟨trimJs line, h3, rfl⟩))

/-! ### Claim C1: sentence-end pause flow -/

/-- The delay a base (advance) timer is armed with, if one is armed. -/
def armedBaseDelay (s : AppState) : Option ℚ :=
  match s.pending with
  | some (Pending.baseSentence d) => some d
  | some (Pending.baseNormal d) => some d
  | _ => none

/-- C1: while Playing, for a sentence-end word with `sentencePause > 0`, the
scheduler arms the base timer for `60000 / wpm` ms; when it fires the display
is blanked (empty ORP split) and the sentence-pause timer is armed for
`sentencePause` ms with the index unchanged; only when that fires does the
index-advance happen; and `pause()` between the blanking and the advance
leaves the index unadvanced, the display blank, and no timer pending. -/
theorem claim_C1_sentence_pause_flow (s : AppState)
    (hplay : s.isPlaying = true)
    (hsp : 0 < s.sentencePause)
    (hse : isSentenceEnd (s.words.getD s.currentWordIndex []) = true) :
    scheduleNextWord s =
      { s with pending := some (Pending.baseSentence (60000 / (s.wpm : ℚ))) } ∧
    fireTimer (scheduleNextWord s) =
      { s with
        display := blankSplit
        pending := some (Pending.sentenceGap (s.sentencePause : ℚ)) } ∧
    (fireTimer (fireTimer (scheduleNextWord s))).currentWordIndex
      = s.currentWordIndex + 1 ∧
    (pause (fireTimer (scheduleNextWord s))).currentWordIndex
      = s.currentWordIndex ∧
    (pause (fireTimer (scheduleNextWord s))).display = blankSplit ∧
    (pause (fireTimer (scheduleNextWord s))).pending = none := by
  have hcond : (decide (0 < s.sentencePause)
      && isSentenceEnd (s.words.getD s.currentWordIndex [])) = true := by
    rw [hse, decide_eq_true hsp]
    rfl
  have h1 : scheduleNextWord s =
      { s with pending := some (Pending.baseSentence (60000 / (s.wpm : ℚ))) } := by
    rw [scheduleNextWord_eq_of_playing s hplay, hcond]
    simp
  have h2 : fireTimer (scheduleNextWord s) =
      { s with
        display := blankSplit
        pending := some (Pending.sentenceGap (s.sentencePause : ℚ)) } := by
    rw [h1]
    simp [fireTimer, hplay]
  refine ⟨h1, h2, ?_, ?_, ?_, ?_⟩
  · rw [h2]
    simp [fireTimer, hplay]
  · rw [h2]; simp
  · rw [h2]; simp
  · rw [h2]; simp

/-- Witness for C1 at a concrete state: after starting with `"Done. next"`
the engine is playing, `sentencePause = 200 > 0`, and the current word
`"Done."` ends a sentence. -/
theorem claim_C1_sentence_pause_flow_witness :
    ((startReading initState "Done. next".toList).isPlaying = true ∧
     0 < (startReading initState "Done. next".toList).sentencePause ∧
     isSentenceEnd ((startReading initState "Done. next".toList).words.getD
       (startReading initState "Done. next".toList).currentWordIndex []) = true) ∧
    (pause (fireTimer (scheduleNextWord (startReading initState "Done. next".toList)))).currentWordIndex
      = (startReading initState "Done. next".toList).currentWordIndex :=
  ⟨⟨by decide, by decide, by decide⟩,
   (claim_C1_sentence_pause_flow (startReading initState "Done. next".toList)
     (by decide) (by decide) (by decide)).2.2.2.1⟩

/-! ### Claim C8: changing wpm while playing -/

theorem play_of_not_playing (x : AppState) (h1 : x.isPlaying = false)
    (h2 : x.currentWordIndex < x.words.length) :
    play x = scheduleNextWord
      (hideStatus { x with isPlaying := true, isPaused := false }) := by
  unfold play
  rw [h1]
  simp [Nat.not_le.mpr h2]

/-- C8: changing `wordsPerMinute` while Playing leaves `currentWordIndex`,
the word list and the display unchanged, keeps the engine playing, stores the
new rate, and re-arms a fresh base timer whose delay is `60000 / newWpm`
milliseconds — the in-flight word is neither skipped nor repeated. -/
theorem claim_C8_wpm_change (s : AppState) (n : Nat)
    (hplay : s.isPlaying = true)
    (hlt : s.currentWordIndex < s.words.length) :
    (onWpmChange s n).currentWordIndex = s.currentWordIndex ∧
    (onWpmChange s n).words = s.words ∧
    (onWpmChange s n).display = s.display ∧
    (onWpmChange s n).isPlaying = true ∧
    (onWpmChange s n).wpm = n ∧
    armedBaseDelay (onWpmChange s n) = some (60000 / (n : ℚ)) := by
  have h0 : onWpmChange s n = play (pause { s with wpm := n }) := by
    simp [onWpmChange, hplay]
  have hp1 : (pause { s with wpm := n }).isPlaying = false := pause_isPlaying _
  have hp2 : (pause { s with wpm := n }).currentWordIndex
      < (pause { s with wpm := n }).words.length := by simpa using hlt
  have h1 := play_of_not_playing _ hp1 hp2
  set y := hideStatus
    { pause { s with wpm := n } with isPlaying := true, isPaused := false } with hy
  have hyp : y.isPlaying = true := by rw [hy]; simp [hideStatus]
  have h2 := scheduleNextWord_eq_of_playing y hyp
  rw [h0, h1, h2]
  have hwords : y.words = s.words := by rw [hy]; simp [hideStatus]
  have hcwi : y.currentWordIndex = s.currentWordIndex := by rw [hy]; simp [hideStatus]
  have hdisp : y.display = s.display := by rw [hy]; simp [hideStatus]
  have hwpm : y.wpm = n := by rw [hy]; simp [hideStatus]
  refine ⟨hcwi, hwords, hdisp, hyp, hwpm, ?_⟩
  rw [armedBaseDelay]
  simp only [hwpm]
  split <;> simp_all <;> split_ifs at * <;> simp_all

/-- Witness for C8 at a concrete state: start with `"Done. next"` (playing,
word 0 of 2 in flight) and switch to 450 wpm. -/
theorem claim_C8_wpm_change_witness :
    ((startReading initState "Done. next".toList).isPlaying = true ∧
     (startReading initState "Done. next".toList).currentWordIndex
       < (startReading initState "Done. next".toList).words.length) ∧
    armedBaseDelay (onWpmChange (startReading initState "Done. next".toList) 450)
      = some (60000 / (450 : ℚ)) :=
  ⟨⟨by decide, by decide⟩,
   (claim_C8_wpm_change (startReading initState "Done. next".toList) 450
     (by decide) (by decide)).2.2.2.2.2⟩

/-! ### Claim C7: manual stepping -/

/-- C7 (amended): once `hasStarted`, a step that can move (index not at the
clamping boundary) pauses the engine, cancels the timer, moves
`currentWordIndex` by one, stays inside `[0, totalWords-1]`, and reports the
plain paused status (`isBreak = false`) even at paragraph boundaries; a step
at the boundary is a complete no-op — in particular it does **not** pause. -/
theorem claim_C7_step_clamping (s₁ s₂ s₃ s₄ : AppState)
    (h₁ : s₁.hasStarted = true) (h₁' : 0 < s₁.currentWordIndex)
    (h₂ : s₂.currentWordIndex = 0)
    (h₃ : s₃.hasStarted = true)
    (h₃' : s₃.currentWordIndex < s₃.words.length - 1)
    (h₄ : s₄.words.length - 1 ≤ s₄.currentWordIndex) :
    ((navigatePrev s₁).isPlaying = false ∧
     (navigatePrev s₁).isPaused = true ∧
     (navigatePrev s₁).pending = none ∧
     (navigatePrev s₁).currentWordIndex = s₁.currentWordIndex - 1 ∧
     (navigatePrev s₁).status
       = some { msg := Msg.pausedPrompt, isBreak := false }) ∧
    navigatePrev s₂ = s₂ ∧
    ((navigateNext s₃).isPlaying = false ∧
     (navigateNext s₃).isPaused = true ∧
     (navigateNext s₃).pending = none ∧
     (navigateNext s₃).currentWordIndex = s₃.currentWordIndex + 1 ∧
     (navigateNext s₃).currentWordIndex ≤ s₃.words.length - 1 ∧
     (navigateNext s₃).status
       = some { msg := Msg.pausedPrompt, isBreak := false }) ∧
    navigateNext s₄ = s₄ := by
  refine ⟨?_, ?_, ?_, ?_⟩
  · simp [navigatePrev, h₁, h₁', updateStatus_proj]
  · simp [navigatePrev, h₂]
  · simp [navigateNext, h₃, h₃', updateStatus_proj]
    omega
  · simp [navigateNext, Nat.not_lt.mpr h₄]

/-- Witness for C7 at concrete states built from `"a b c"`: a mid-text state
(index 1), the start boundary (index 0), a forward-movable state, and the end
boundary (index 2 = totalWords − 1). -/
theorem claim_C7_step_clamping_witness :
    ((navigateNext (startReading initState "a b c".toList)).hasStarted = true ∧
     0 < (navigateNext (startReading initState "a b c".toList)).currentWordIndex ∧
     (startReading initState "a b c".toList).currentWordIndex = 0 ∧
     (startReading initState "a b c".toList).hasStarted = true ∧
     (startReading initState "a b c".toList).currentWordIndex
       < (startReading initState "a b c".toList).words.length - 1 ∧
     (navigateNext (navigateNext (startReading initState "a b c".toList))).words.length - 1
       ≤ (navigateNext (navigateNext (startReading initState "a b c".toList))).currentWordIndex) ∧
    navigateNext (navigateNext (navigateNext (startReading initState "a b c".toList)))
      = navigateNext (navigateNext (startReading initState "a b c".toList)) :=
  ⟨⟨by decide, by decide, by decide, by decide, by decide, by decide⟩,
   (claim_C7_step_clamping
     (navigateNext (startReading initState "a b c".toList))
     (startReading initState "a b c".toList)
     (startReading initState "a b c".toList)
     (navigateNext (navigateNext (startReading initState "a b c".toList)))
     (by decide) (by decide) (by decide) (by decide) (by decide) (by decide)).2.2.2⟩

/-- Counterexample to C7 as stated: the claim says every invocation of
`stepBackward` "first pauses".  In the freshly started (Playing) state on
`"a b"` the index is 0, and `navigatePrev` is a complete no-op: the engine is
still playing afterwards and the pending timer is still armed — it did not
pause. -/
theorem claim_C7_counterexample :
    (startReading initState "a b".toList).isPlaying = true ∧
    (startReading initState "a b".toList).hasStarted = true ∧
    (startReading initState "a b".toList).currentWordIndex = 0 ∧
    navigatePrev (startReading initState "a b".toList)
      = startReading initState "a b".toList ∧
    (navigatePrev (startReading initState "a b".toList)).isPlaying = true ∧
    (navigatePrev (startReading initState "a b".toList)).pending ≠ none := by
  have h3 : (startReading initState "a b".toList).currentWordIndex = 0 := by decide
  have h4 : navigatePrev (startReading initState "a b".toList)
      = startReading initState "a b".toList := by
    unfold navigatePrev
    rw [h3]
    simp
  refine ⟨by decide, by decide, h3, h4, ?_, ?_⟩
  · rw [h4]; decide
  · rw [h4]; decide

/-! ### Claim C6: empty input -/

/-- C6: for any input whose flattened word sequence is empty (blank or
whitespace-only input), segmentation reports failure (`success = false`) and
`startReading` only re-prompts: mode flags, `hasStarted`, the position, and
the word/paragraph model are all left unchanged (only the status message is
set). -/
theorem claim_C6_empty_input (s : AppState) (text : List Char)
    (h : (parseTextPure text).2.1 = []) :
    (parseTextPure text).2.2 = false ∧
    startReading s text = updateStatus s Msg.startPrompt false := by
  constructor
  · have hdef : (parseTextPure text).2.2
        = decide (0 < (parseTextPure text).2.1.length) := rfl
    rw [hdef, h]
    rfl
  · have htrim : trimJs text = [] := by
      by_contra htr
      have hex : ¬ ∀ c ∈ text, isJsWs c = true :=
        fun hall => htr (trimJs_eq_nil_of_all_ws text hall)
      push_neg at hex
      obtain ⟨c, hc, hcw⟩ := hex
      exact parseTextPure_words_ne_nil text c hc (by simpa using hcw) h
    simp [startReading, htrim]

/-- Witness for C6 at the spec's example input `"   \n  "`. -/
theorem claim_C6_empty_input_witness :
    (parseTextPure "   \n  ".toList).2.1 = [] ∧
    ((parseTextPure "   \n  ".toList).2.2 = false ∧
     startReading initState "   \n  ".toList
       = updateStatus initState Msg.startPrompt false) :=
  ⟨by decide, claim_C6_empty_input initState "   \n  ".toList (by decide)⟩

/-! ### Claim C4: the position/paragraph invariant over reachable states -/

theorem sum_take_le (L : List Nat) (k : Nat) : (L.take k).sum ≤ L.sum := by
  induction L generalizing k with
  | nil => simp
  | cons x rest ih =>
    cases k with
    | zero => simp
    | succ j =>
      simp only [List.take_succ_cons, List.sum_cons]
      have := ih j
      omega

/-- The structural facts `parseText` guarantees about the model: the flat word
list is the concatenation of the paragraphs' words, and startWordIndex is the
running sum of the preceding word counts. -/
def structureOk (ps : List Paragraph) (ws : List (List Char)) : Prop :=
  ws = (ps.map Paragraph.words).flatten ∧
  ∀ i, i < ps.length →
    (ps.getD i default).startWordIndex
      = (((ps.take i).map fun p => p.words.length).sum)

theorem structureOk_total (ps : List Paragraph) (ws : List (List Char))
    (h : structureOk ps ws) :
    ws.length = (ps.map fun p => p.words.length).sum := by
  rw [h.1, List.length_flatten, List.map_map]
  rfl

theorem structureOk_end_le (ps : List Paragraph) (ws : List (List Char))
    (h : structureOk ps ws) (i : Nat) (hi : i < ps.length) :
    (ps.getD i default).startWordIndex + (ps.getD i default).words.length
      ≤ ws.length := by
  rw [structureOk_total ps ws h]
  rw [h.2 i hi]
  have hget : ps.getD i default = ps[i] := List.getD_eq_getElem ps default hi
  have hlen : i < (ps.map fun p => p.words.length).length := by simpa using hi
  have hs := List.sum_take_succ (ps.map fun p => p.words.length) i hlen
  have hmap : (ps.map fun p => p.words.length)[i] = ps[i].words.length :=
    List.getElem_map _
  have htake : (ps.take i).map (fun p => p.words.length)
      = (ps.map fun p => p.words.length).take i := List.map_take _ _ _
  rw [htake, hget, ← hmap, ← hs]
  exact sum_take_le _ _

theorem structureOk_start_le (ps : List Paragraph) (ws : List (List Char))
    (h : structureOk ps ws) (i : Nat) (hi : i < ps.length) :
    (ps.getD i default).startWordIndex ≤ ws.length := by
  have := structureOk_end_le ps ws h i hi
  omega

/-- For the last paragraph, the end boundary is exactly the total word
count. -/
theorem structureOk_last_end (ps : List Paragraph) (ws : List (List Char))
    (h : structureOk ps ws) (hne : ps ≠ []) :
    (ps.getD (ps.length - 1) default).startWordIndex
      + (ps.getD (ps.length - 1) default).words.length = ws.length := by
  have hlen : 0 < ps.length := List.length_pos.mpr hne
  rw [structureOk_total ps ws h, h.2 (ps.length - 1) (by omega)]
  have hget : ps.getD (ps.length - 1) default = ps[ps.length - 1] :=
    List.getD_eq_getElem ps default (by omega)
  have hlen2 : ps.length - 1 < (ps.map fun p => p.words.length).length := by
    simpa using by omega
  have hs := List.sum_take_succ (ps.map fun p => p.words.length) (ps.length - 1) hlen2
  have hmap : (ps.map fun p => p.words.length)[ps.length - 1]
      = ps[ps.length - 1].words.length := List.getElem_map _
  have htake : (ps.take (ps.length - 1)).map (fun p => p.words.length)
      = (ps.map fun p => p.words.length).take (ps.length - 1) := List.map_take _ _ _
  have hfull : (ps.map fun p => p.words.length).take (ps.length - 1 + 1)
      = ps.map fun p => p.words.length := by
    apply List.take_of_length_le
    simpa using by omega
  rw [htake, hget, ← hmap, ← hs, hfull]

/-- The head of a nonempty `dropWhile` result fails the predicate. -/
theorem dropWhile_head_not (p : Char → Bool) (l : List Char) (c : Char)
    (rest : List Char) (h : l.dropWhile p = c :: rest) : p c = false := by
  induction l with
  | nil => simp at h
  | cons d tl ih =>
    rw [List.dropWhile_cons] at h
    split_ifs at h with hd
    · exact ih h
    · obtain ⟨rfl, -⟩ := List.cons.injEq .. ▸ h
      simpa using hd

/-- A nonempty trim result contains a non-whitespace character. -/
theorem exists_not_ws_of_trimJs_ne_nil (l : List Char) (h : trimJs l ≠ []) :
    ∃ c ∈ trimJs l, isJsWs c = false := by
  unfold trimJs at h ⊢
  rcases hz : (l.dropWhile isJsWs).reverse.dropWhile isJsWs with _ | ⟨c, rest⟩
  · rw [hz] at h
    simp at h
  · exact ⟨c, by simp, dropWhile_head_not _ _ _ _ hz⟩

/-- Every paragraph produced by `parseText` has at least one word (empty
trimmed lines are filtered out before words are extracted). -/
theorem parseTextPure_paragraph_words_ne_nil (text : List Char) :
    ∀ p ∈ (parseTextPure text).1, p.words ≠ [] := by
  intro p hp
  have hmem : p.words ∈ (parseTextPure text).1.map Paragraph.words :=
    List.mem_map_of_mem _ hp
  rw [parseTextPure_words_map] at hmem
  obtain ⟨line, hline, heq⟩ := List.mem_map.mp hmem
  obtain ⟨hmm, hlen⟩ := List.mem_filter.mp hline
  obtain ⟨orig, -, htrim⟩ := List.mem_map.mp hmm
  have hne : line ≠ [] := by
    intro hnil
    rw [hnil] at hlen
    simp at hlen
  obtain ⟨c, hc, hcw⟩ := exists_not_ws_of_trimJs_ne_nil orig (by rw [htrim]; exact hne)
  rw [htrim] at hc
  rw [← heq]
  exact extractWords_ne_nil line c hc hcw

theorem structureOk_congr (s t : AppState) (hp : t.paragraphs = s.paragraphs)
    (hw : t.words = s.words) (h : structureOk s.paragraphs s.words) :
    structureOk t.paragraphs t.words := by
  rw [hp, hw]; exact h

/-- The states reachable through the public operations after a successful
start (one that actually set `hasStarted`): user activation (click/Space),
the navigation arrows, restart-paragraph, timer firings, and configuration
changes. -/
inductive Reachable : AppState → Prop where
  | start (text : List Char)
      (h : (startReading initState text).hasStarted = true) :
      Reachable (startReading initState text)
  | click (s : AppState) (text : List Char) :
      Reachable s → Reachable (handleReaderClick s text)
  | stepBack (s : AppState) : Reachable s → Reachable (navigatePrev s)
  | stepFwd (s : AppState) : Reachable s → Reachable (navigateNext s)
  | restartPara (s : AppState) : Reachable s → Reachable (restartCurrentParagraph s)
  | fire (s : AppState) : Reachable s → Reachable (fireTimer s)
  | wpmChange (s : AppState) (n : Nat) : Reachable s → Reachable (onWpmChange s n)
  | pauseChange (s : AppState) (n : Nat) : Reachable s → Reachable (onPauseChange s n)

/-- The running invariant of the engine once reading has started. -/
def Inv (s : AppState) : Prop :=
  s.hasStarted = true ∧
  0 < s.words.length ∧
  s.currentWordIndex ≤ s.words.length ∧
  s.currentParagraphIndex < s.paragraphs.length ∧
  (s.isPlaying = true → s.currentWordIndex < s.words.length) ∧
  structureOk s.paragraphs s.words ∧
  (∀ p ∈ s.paragraphs, p.words ≠ []) ∧
  (s.isPaused = true → s.isPlaying = false)

theorem inv_pause (s : AppState) (h : Inv s) : Inv (pause s) := by
  obtain ⟨h1, h2, h3, h4, h5, h6, h7, h8⟩ := h
  refine ⟨by simpa using h1, by simpa using h2, by simpa using h3,
    by simpa using h4, by simp, structureOk_congr s _ (by simp) (by simp) h6,
    by simpa using h7, by simp⟩

theorem inv_displayCurrentWord (s : AppState) (h : Inv s) :
    Inv (displayCurrentWord s) := by
  obtain ⟨h1, h2, h3, h4, h5, h6, h7, h8⟩ := h
  refine ⟨by simpa using h1, by simpa using h2, by simpa using h3,
    by simpa using h4, by simpa using h5,
    structureOk_congr s _ (by simp) (by simp) h6,
    by simpa using h7, by simpa using h8⟩

theorem inv_scheduleNextWord (s : AppState) (h : Inv s) :
    Inv (scheduleNextWord s) := by
  obtain ⟨h1, h2, h3, h4, h5, h6, h7, h8⟩ := h
  refine ⟨by simpa using h1, by simpa using h2, by simpa using h3,
    by simpa using h4, by simpa using h5,
    structureOk_congr s _ (by simp) (by simp) h6,
    by simpa using h7, by simpa using h8⟩

theorem inv_play (s : AppState) (h : Inv s) : Inv (play s) := by
  obtain ⟨h1, h2, h3, h4, h5, h6, h7, h8⟩ := h
  unfold play
  split_ifs with hg
  · exact ⟨h1, h2, h3, h4, h5, h6, h7, h8⟩
  · simp only [Bool.or_eq_true, decide_eq_true_eq, not_or] at hg
    apply inv_scheduleNextWord
    refine ⟨by simpa [hideStatus] using h1, by simpa [hideStatus] using h2,
      by simpa [hideStatus] using h3, by simpa [hideStatus] using h4,
      ?_, structureOk_congr s _ (by simp [hideStatus]) (by simp [hideStatus]) h6,
      by simpa [hideStatus] using h7, by simp [hideStatus]⟩
    intro _
    simp only [hideStatus]
    omega

theorem inv_advanceWord (s : AppState) (h : Inv s) (hp : s.isPlaying = true) :
    Inv (advanceWord s) := by
  obtain ⟨h1, h2, h3, h4, h5, h6, h7, h8⟩ := h
  have hlt : s.currentWordIndex < s.words.length := h5 hp
  simp only [advanceWord, updateStatus_proj]
  split_ifs with hb hnext
  · refine ⟨by simpa using h1, by simpa using h2, by simpa using hlt,
      by simpa using h4, by simp, structureOk_congr s _ (by simp) (by simp) h6,
      by simpa using h7, by simp⟩
  · refine ⟨by simpa using h1, by simpa using h2, by simpa using hlt,
      by simpa using h4, by simp, structureOk_congr s _ (by simp) (by simp) h6,
      by simpa using h7, by simp⟩
  · apply inv_scheduleNextWord
    apply inv_displayCurrentWord
    have hend := structureOk_end_le s.paragraphs s.words h6 s.currentParagraphIndex h4
    have hb' : s.currentWordIndex + 1
        < (s.paragraphs.getD s.currentParagraphIndex default).startWordIndex
          + (s.paragraphs.getD s.currentParagraphIndex default).words.length :=
      Nat.lt_of_not_le hb
    refine ⟨h1, h2, ?_, h4, ?_, structureOk_congr s _ rfl rfl h6, h7, h8⟩
    · show s.currentWordIndex + 1 ≤ s.words.length
      omega
    · intro _
      show s.currentWordIndex + 1 < s.words.length
      omega

theorem inv_fireTimer (s : AppState) (h : Inv s) : Inv (fireTimer s) := by
  obtain ⟨h1, h2, h3, h4, h5, h6, h7, h8⟩ := h
  unfold fireTimer
  rcases hpend : s.pending with _ | t
  · exact ⟨h1, h2, h3, h4, h5, h6, h7, h8⟩
  · simp only
    by_cases hpl : s.isPlaying = true
    · rw [if_neg (by simp [hpl])]
      have hinv' : Inv { s with pending := none } :=
        ⟨h1, h2, h3, h4, fun _ => h5 hpl, structureOk_congr s _ rfl rfl h6, h7, h8⟩
      cases t with
      | baseSentence d =>
        exact ⟨h1, h2, h3, h4, fun _ => h5 hpl,
          structureOk_congr s _ rfl rfl h6, h7, h8⟩
      | baseNormal d => exact inv_advanceWord _ hinv' hpl
      | sentenceGap d => exact inv_advanceWord _ hinv' hpl
    · rw [if_pos (by simpa using hpl)]
      exact ⟨h1, h2, h3, h4, fun hc => absurd hc hpl,
        structureOk_congr s _ rfl rfl h6, h7, h8⟩

theorem inv_navigatePrev (s : AppState) (h : Inv s) : Inv (navigatePrev s) := by
  obtain ⟨h1, h2, h3, h4, h5, h6, h7, h8⟩ := h
  unfold navigatePrev
  split_ifs with hg
  · rw [updateStatus_proj]
    refine ⟨by simpa using h1, by simpa using h2, ?_,
      by simpa using h4, by simp, structureOk_congr s _ (by simp) (by simp) h6,
      by simpa using h7, by simp⟩
    simp only [displayCurrentWord_currentWordIndex, displayCurrentWord_words]
    simp
    omega
  · exact ⟨h1, h2, h3, h4, h5, h6, h7, h8⟩

theorem inv_navigateNext (s : AppState) (h : Inv s) : Inv (navigateNext s) := by
  obtain ⟨h1, h2, h3, h4, h5, h6, h7, h8⟩ := h
  unfold navigateNext
  split_ifs with hg
  · simp only [Bool.and_eq_true, decide_eq_true_eq] at hg
    rw [updateStatus_proj]
    refine ⟨by simpa using h1, by simpa using h2, ?_,
      by simpa using h4, by simp, structureOk_congr s _ (by simp) (by simp) h6,
      by simpa using h7, by simp⟩
    simp only [displayCurrentWord_currentWordIndex, displayCurrentWord_words]
    simp
    omega
  · exact ⟨h1, h2, h3, h4, h5, h6, h7, h8⟩

theorem inv_restartCurrentParagraph (s : AppState) (h : Inv s) :
    Inv (restartCurrentParagraph s) := by
  obtain ⟨h1, h2, h3, h4, h5, h6, h7, h8⟩ := h
  simp only [restartCurrentParagraph]
  apply inv_play
  apply inv_displayCurrentWord
  have hmem : s.paragraphs.getD s.currentParagraphIndex default ∈ s.paragraphs := by
    rw [List.getD_eq_getElem s.paragraphs default h4]
    exact List.getElem_mem _
  have hne := h7 _ hmem
  have hwlen : 0 < (s.paragraphs.getD s.currentParagraphIndex default).words.length :=
    List.length_pos.mpr hne
  have hend := structureOk_end_le s.paragraphs s.words h6 s.currentParagraphIndex h4
  have hlt : (s.paragraphs.getD s.currentParagraphIndex default).startWordIndex
      < s.words.length := by omega
  exact ⟨h1, h2, Nat.le_of_lt hlt, h4, fun _ => hlt,
    structureOk_congr s _ rfl rfl h6, h7, h8⟩

theorem inv_continueAfterParagraph (s : AppState) (h : Inv s)
    (hpl : s.isPlaying = false)
    (hguard : (s.paragraphs.getD s.currentParagraphIndex default).startWordIndex
        + (s.paragraphs.getD s.currentParagraphIndex default).words.length
      ≤ s.currentWordIndex) :
    Inv (continueAfterParagraph s) := by
  obtain ⟨h1, h2, h3, h4, h5, h6, h7, h8⟩ := h
  simp only [continueAfterParagraph]
  apply inv_play
  apply inv_displayCurrentWord
  split_ifs with hA hB
  · exact ⟨h1, h2, Nat.zero_le _, Nat.lt_of_le_of_lt (Nat.zero_le _) h4,
      fun _ => h2, structureOk_congr s _ rfl rfl h6, h7, fun _ => hpl⟩
  · have hB' : s.currentParagraphIndex + 1 < s.paragraphs.length := hB
    have hstart := structureOk_start_le s.paragraphs s.words h6
      (s.currentParagraphIndex + 1) hB'
    refine ⟨h1, h2, hstart, hB', ?_, structureOk_congr s _ rfl rfl h6, h7,
      fun _ => hpl⟩
    intro hc
    rw [hpl] at hc
    exact absurd hc (by simp)
  · exfalso
    have hB' : ¬ (s.currentParagraphIndex + 1 < s.paragraphs.length) := hB
    have hcplast : s.currentParagraphIndex = s.paragraphs.length - 1 := by omega
    have hend := structureOk_last_end s.paragraphs s.words h6
      (by intro hnil; rw [hnil] at h4; simp at h4)
    rw [← hcplast] at hend
    have hwle : s.words.length ≤ s.currentWordIndex := by omega
    apply hA
    simp only [Bool.and_eq_true, decide_eq_true_eq]
    exact ⟨by omega, by omega⟩

theorem inv_handleReaderClick (s : AppState) (text : List Char) (h : Inv s) :
    Inv (handleReaderClick s text) := by
  obtain ⟨h1, h2, h3, h4, h5, h6, h7, h8⟩ := h
  unfold handleReaderClick
  rw [h1]
  simp only [Bool.not_true, Bool.false_eq_true, if_false]
  split_ifs with hp hg
  · exact inv_continueAfterParagraph s ⟨h1, h2, h3, h4, h5, h6, h7, h8⟩ (h8 hp) hg
  · exact inv_play s ⟨h1, h2, h3, h4, h5, h6, h7, h8⟩
  · exact inv_pause s ⟨h1, h2, h3, h4, h5, h6, h7, h8⟩

theorem inv_onWpmChange (s : AppState) (n : Nat) (h : Inv s) :
    Inv (onWpmChange s n) := by
  obtain ⟨h1, h2, h3, h4, h5, h6, h7, h8⟩ := h
  simp only [onWpmChange]
  have hinv' : Inv { s with wpm := n } :=
    ⟨h1, h2, h3, h4, h5, structureOk_congr s _ rfl rfl h6, h7, h8⟩
  split_ifs with hg
  · exact inv_play _ (inv_pause _ hinv')
  · exact hinv'

theorem inv_onPauseChange (s : AppState) (n : Nat) (h : Inv s) :
    Inv (onPauseChange s n) := by
  obtain ⟨h1, h2, h3, h4, h5, h6, h7, h8⟩ := h
  exact ⟨h1, h2, h3, h4, h5, structureOk_congr s _ rfl rfl h6, h7, h8⟩

/-- A successful start establishes the invariant. -/
theorem inv_start (text : List Char)
    (h : (startReading initState text).hasStarted = true) :
    Inv (startReading initState text) := by
  by_cases htr : trimJs text = []
  · exfalso
    unfold startReading at h
    rw [if_pos htr] at h
    simp [updateStatus, initState] at h
  · by_cases hok : (parseTextPure text).2.2 = true
    · have hstep : startReading initState text
          = play (displayCurrentWord
              { initState with
                paragraphs := (parseTextPure text).1,
                words := (parseTextPure text).2.1,
                currentWordIndex := 0, currentParagraphIndex := 0,
                hasStarted := true }) := by
        unfold startReading
        rw [if_neg htr]
        simp only [hok, Bool.not_true, Bool.false_eq_true, if_false]
      rw [hstep]
      have hwords : 0 < (parseTextPure text).2.1.length := by
        have hdef : (parseTextPure text).2.2
            = decide (0 < (parseTextPure text).2.1.length) := rfl
        rw [hdef] at hok
        exact of_decide_eq_true hok
      have hflat : (parseTextPure text).2.1
          = ((parseTextPure text).1.map Paragraph.words).flatten := rfl
      have hps : (parseTextPure text).1 ≠ [] := by
        intro hnil
        rw [hflat, hnil] at hwords
        simp at hwords
      apply inv_play
      apply inv_displayCurrentWord
      refine ⟨rfl, hwords, Nat.zero_le _, List.length_pos.mpr hps, fun _ => hwords,
        ⟨hflat, ?_⟩, parseTextPure_paragraph_words_ne_nil text, ?_⟩
      · intro i hi
        exact parseTextPure_start_eq_sum text i hi
      · intro hc
        simp [initState] at hc
    · exfalso
      unfold startReading at h
      rw [if_neg htr] at h
      simp only [Bool.not_eq_true] at hok
      simp [hok, initState] at h

/-- Every reachable state satisfies the invariant. -/
theorem reachable_inv (s : AppState) (h : Reachable s) : Inv s := by
  induction h with
  | start text h => exact inv_start text h
  | click s text _ ih => exact inv_handleReaderClick s text ih
  | stepBack s _ ih => exact inv_navigatePrev s ih
  | stepFwd s _ ih => exact inv_navigateNext s ih
  | restartPara s _ ih => exact inv_restartCurrentParagraph s ih
  | fire s _ ih => exact inv_fireTimer s ih
  | wpmChange s n _ ih => exact inv_onWpmChange s n ih
  | pauseChange s n _ ih => exact inv_onPauseChange s n ih

/-- C4 (amended): in every state reachable through the public operations
after a successful start, `0 ≤ currentWordIndex ≤ totalWords` holds,
`currentParagraphIndex` is a valid paragraph index, while Playing the index is
strictly below `totalWords`, the model is nonempty, and every paragraph has at
least one word.  (`currentParagraphIndex` is *not* in general the paragraph
containing `currentWordIndex`: see the counterexample.) -/
theorem claim_C4_position_invariant (s : AppState) (h : Reachable s) :
    s.currentWordIndex ≤ s.words.length ∧
    s.currentParagraphIndex < s.paragraphs.length ∧
    (s.isPlaying = true → s.currentWordIndex < s.words.length) ∧
    0 < s.words.length ∧
    (∀ p ∈ s.paragraphs, p.words ≠ []) := by
  obtain ⟨h1, h2, h3, h4, h5, h6, h7, h8⟩ := reachable_inv s h
  exact ⟨h3, h4, h5, h2, h7⟩

/-- Witness for C4: the state reached from starting `"x\ny z"` and letting
the first advance timer fire is reachable, and satisfies the invariant. -/
theorem claim_C4_position_invariant_witness :
    Reachable (fireTimer (startReading initState "x\ny z".toList)) ∧
    ((fireTimer (startReading initState "x\ny z".toList)).currentWordIndex
        ≤ (fireTimer (startReading initState "x\ny z".toList)).words.length ∧
     (fireTimer (startReading initState "x\ny z".toList)).currentParagraphIndex
        < (fireTimer (startReading initState "x\ny z".toList)).paragraphs.length ∧
     ((fireTimer (startReading initState "x\ny z".toList)).isPlaying = true →
       (fireTimer (startReading initState "x\ny z".toList)).currentWordIndex
         < (fireTimer (startReading initState "x\ny z".toList)).words.length) ∧
     0 < (fireTimer (startReading initState "x\ny z".toList)).words.length ∧
     (∀ p ∈ (fireTimer (startReading initState "x\ny z".toList)).paragraphs,
       p.words ≠ [])) :=
  have hr : Reachable (fireTimer (startReading initState "x\ny z".toList)) :=
    Reachable.fire _ (Reachable.start _ (by decide))
  ⟨hr, claim_C4_position_invariant _ hr⟩

/-- Counterexample to C4 as stated: after starting `"x\ny z"` and letting the
advance timer fire, the engine is paused at the paragraph break with
`currentWordIndex = 1` and `currentParagraphIndex = 0`; but word index 1 lies
in paragraph 1's range `[1, 3)`, not in paragraph 0's range `[0, 1)`, and
`1 ≠ totalWords = 3`, so `currentParagraphIndex` is neither the index of the
paragraph containing the position nor the end-of-text exception. -/
theorem claim_C4_counterexample :
    Reachable (fireTimer (startReading initState "x\ny z".toList)) ∧
    (fireTimer (startReading initState "x\ny z".toList)).currentParagraphIndex = 0 ∧
    (fireTimer (startReading initState "x\ny z".toList)).currentWordIndex = 1 ∧
    (fireTimer (startReading initState "x\ny z".toList)).words.length = 3 ∧
    ((fireTimer (startReading initState "x\ny z".toList)).paragraphs.getD 0
        default).startWordIndex = 0 ∧
    ((fireTimer (startReading initState "x\ny z".toList)).paragraphs.getD 0
        default).words.length = 1 ∧
    ((fireTimer (startReading initState "x\ny z".toList)).paragraphs.getD 1
        default).startWordIndex = 1 ∧
    ((fireTimer (startReading initState "x\ny z".toList)).paragraphs.getD 1
        default).words.length = 2 :=
  ⟨Reachable.fire _ (Reachable.start _ (by decide)), by decide, by decide,
   by decide, by decide, by decide, by decide, by decide⟩

/-! ### Claim C10: intelligentSplit -/

/-- Scanner phase for the global regex `[^.!?]+[.!?]+\s*`: outside any match
attempt (`seek`), inside the non-terminator run (`run`), inside the
terminator run (`terms`), or consuming trailing whitespace (`wsTail`). -/
inductive ScanPhase where
  | seek
  | run
  | terms
  | wsTail
deriving DecidableEq, Repr

/-- `text.match(/[^.!?]+[.!?]+\s*/g)` as a left-to-right scanner.  `cur` holds
the characters of the current match attempt in reverse.  A match needs a
nonempty run of non-terminators followed by at least one terminator (greedy),
then greedily consumes terminators and trailing whitespace; characters that
cannot start or extend a match are skipped, exactly as the regex engine
advances its starting position. -/
def sentenceScanAux : ScanPhase → List Char → List Char → List (List Char)
  | ScanPhase.seek, _, [] => []
  | ScanPhase.run, _, [] => []
  | ScanPhase.terms, cur, [] => [cur.reverse]
  | ScanPhase.wsTail, cur, [] => [cur.reverse]
  | ScanPhase.seek, _, c :: rest =>
    if isTerm c then sentenceScanAux ScanPhase.seek [] rest
    else sentenceScanAux ScanPhase.run [c] rest
  | ScanPhase.run, cur, c :: rest =>
    if isTerm c then sentenceScanAux ScanPhase.terms (c :: cur) rest
    else sentenceScanAux ScanPhase.run (c :: cur) rest
  | ScanPhase.terms, cur, c :: rest =>
    if isTerm c then sentenceScanAux ScanPhase.terms (c :: cur) rest
    else if isJsWs c then sentenceScanAux ScanPhase.wsTail (c :: cur) rest
    else cur.reverse :: sentenceScanAux ScanPhase.run [c] rest
  | ScanPhase.wsTail, cur, c :: rest =>
    if isJsWs c then sentenceScanAux ScanPhase.wsTail (c :: cur) rest
    else if isTerm c then cur.reverse :: sentenceScanAux ScanPhase.seek [] rest
    else cur.reverse :: sentenceScanAux ScanPhase.run [c] rest

def sentenceScan (text : List Char) : List (List Char) :=
  sentenceScanAux ScanPhase.seek [] text

/-- JavaScript `split(/\s+/)`: split at every maximal whitespace run, keeping
empty leading/trailing pieces. -/
def jsSplitWs : List Char → List (List Char)
  | [] => [[]]
  | c :: rest =>
    let pieces := jsSplitWs rest
    if isJsWs c then
      match rest with
      | [] => [] :: pieces
      | d :: _ => if isJsWs d then pieces else [] :: pieces
    else consHead c pieces

/-- One iteration of the `sentences.forEach` accumulation loop of
`intelligentSplit`: state is (paragraphs, currentParagraph, wordCount). -/
def accumStep (st : List (List Char) × List Char × Nat) (sentence : List Char) :
    List (List Char) × List Char × Nat :=
  let sentenceWords := (jsSplitWs (trimJs sentence)).length
  if 75 < st.2.2 + sentenceWords ∧ st.2.1 ≠ [] then
    (st.1 ++ [trimJs st.2.1], sentence, sentenceWords)
  else
    (st.1, st.2.1 ++ sentence, st.2.2 + sentenceWords)

/-- `intelligentSplit` from src/app.js (`targetWordsPerParagraph = 75`). -/
def intelligentSplit (text : List Char) : List (List Char) :=
  let sentences :=
    if sentenceScan text = [] then [text] else sentenceScan text
  let st := sentences.foldl accumStep ([], [], 0)
  let paragraphs := if trimJs st.2.1 ≠ [] then st.1 ++ [trimJs st.2.1] else st.1
  if 0 < paragraphs.length then paragraphs else [text]

/-- The last non-whitespace character of a piece of text, if any. -/
def lastNonWs (l : List Char) : Option Char :=
  (l.filter fun c => !isJsWs c).getLast?

/-- A good paragraph: its last non-whitespace character is a sentence
terminator (so in particular it is nonempty and contains a terminator). -/
def GoodPara (p : List Char) : Prop :=
  ∃ t, lastNonWs p = some t ∧ isTerm t = true

theorem term_not_ws (c : Char) (h : isTerm c = true) : isJsWs c = false := by
  have hc : c = '.' ∨ c = '!' ∨ c = '?' := by
    simpa [isTerm, or_assoc] using h
  rcases hc with rfl | rfl | rfl <;> decide

theorem lastNonWs_reverse (cur : List Char) :
    lastNonWs cur.reverse = (cur.filter fun c => !isJsWs c).head? := by
  unfold lastNonWs
  rw [List.filter_reverse, List.getLast?_reverse]

/-- The invariant carried by the scanner's accumulator in each phase. -/
def PhaseInv : ScanPhase → List Char → Prop
  | ScanPhase.seek, _ => True
  | ScanPhase.run, _ => True
  | ScanPhase.terms, cur => ∃ t r, cur = t :: r ∧ isTerm t = true
  | ScanPhase.wsTail, cur =>
      ∃ w t r, cur = w ++ t :: r ∧ (∀ c ∈ w, isJsWs c = true) ∧ isTerm t = true

theorem emit_good_terms (cur : List Char) (t : Char) (r : List Char)
    (h : cur = t :: r) (ht : isTerm t = true) : GoodPara cur.reverse := by
  refine ⟨t, ?_, ht⟩
  rw [lastNonWs_reverse, h, List.filter_cons]
  simp [term_not_ws t ht]

theorem emit_good_wsTail (cur : List Char) (w : List Char) (t : Char)
    (r : List Char) (h : cur = w ++ t :: r) (hw : ∀ c ∈ w, isJsWs c = true)
    (ht : isTerm t = true) : GoodPara cur.reverse := by
  refine ⟨t, ?_, ht⟩
  rw [lastNonWs_reverse, h, List.filter_append]
  have hwf : w.filter (fun c => !isJsWs c) = [] := by
    rw [List.filter_eq_nil_iff]
    intro c hc
    simp [hw c hc]
  rw [hwf, List.filter_cons]
  simp [term_not_ws t ht]

theorem sentenceScanAux_good (l : List Char) :
    ∀ (ph : ScanPhase) (cur : List Char), PhaseInv ph cur →
      ∀ m ∈ sentenceScanAux ph cur l, GoodPara m := by
  induction l with
  | nil =>
    intro ph cur hinv m hm
    cases ph with
    | seek => simp [sentenceScanAux] at hm
    | run => simp [sentenceScanAux] at hm
    | terms =>
      obtain ⟨t, r, hc, ht⟩ := hinv
      simp only [sentenceScanAux, List.mem_singleton] at hm
      subst hm
      exact emit_good_terms cur t r hc ht
    | wsTail =>
      obtain ⟨w, t, r, hc, hw, ht⟩ := hinv
      simp only [sentenceScanAux, List.mem_singleton] at hm
      subst hm
      exact emit_good_wsTail cur w t r hc hw ht
  | cons c rest ih =>
    intro ph cur hinv m hm
    cases ph with
    | seek =>
      rw [sentenceScanAux] at hm
      split_ifs at hm
      · exact ih ScanPhase.seek [] trivial m hm
      · exact ih ScanPhase.run [c] trivial m hm
    | run =>
      rw [sentenceScanAux] at hm
      split_ifs at hm with hterm
      · exact ih ScanPhase.terms (c :: cur) ⟨c, cur, rfl, hterm⟩ m hm
      · exact ih ScanPhase.run (c :: cur) trivial m hm
    | terms =>
      obtain ⟨t, r, hc, ht⟩ := hinv
      rw [sentenceScanAux] at hm
      split_ifs at hm with hterm hws
      · exact ih ScanPhase.terms (c :: cur) ⟨c, cur, rfl, hterm⟩ m hm
      · refine ih ScanPhase.wsTail (c :: cur) ⟨[c], t, r, ?_, ?_, ht⟩ m hm
        · rw [hc]; rfl
        · intro d hd
          rw [List.mem_singleton] at hd
          subst hd
          exact hws
      · rcases List.mem_cons.mp hm with rfl | hm'
        · exact emit_good_terms cur t r hc ht
        · exact ih ScanPhase.run [c] trivial m hm'
    | wsTail =>
      obtain ⟨w, t, r, hc, hw, ht⟩ := hinv
      rw [sentenceScanAux] at hm
      split_ifs at hm with hws hterm
      · refine ih ScanPhase.wsTail (c :: cur) ⟨c :: w, t, r, ?_, ?_, ht⟩ m hm
        · rw [hc]; rfl
        · intro d hd
          rcases List.mem_cons.mp hd with rfl | hd'
          · exact hws
          · exact hw d hd'
      · rcases List.mem_cons.mp hm with rfl | hm'
        · exact emit_good_wsTail cur w t r hc hw ht
        · exact ih ScanPhase.seek [] trivial m hm'
      · rcases List.mem_cons.mp hm with rfl | hm'
        · exact emit_good_wsTail cur w t r hc hw ht
        · exact ih ScanPhase.run [c] trivial m hm'

theorem sentenceScan_good (text : List Char) :
    ∀ m ∈ sentenceScan text, GoodPara m :=
  sentenceScanAux_good text ScanPhase.seek [] trivial

/-- With no terminator anywhere ahead, the scanner produces no match from the
`seek` or `run` phases. -/
theorem sentenceScanAux_no_term (l : List Char)
    (h : ∀ c ∈ l, isTerm c = false) :
    (∀ cur, sentenceScanAux ScanPhase.seek cur l = []) ∧
    (∀ cur, sentenceScanAux ScanPhase.run cur l = []) := by
  induction l with
  | nil => exact ⟨fun _ => rfl, fun _ => rfl⟩
  | cons c rest ih =>
    have hc := h c (List.mem_cons_self c rest)
    have ih' := ih fun d hd => h d (List.mem_cons_of_mem c hd)
    constructor
    · intro cur
      rw [sentenceScanAux, if_neg (by simp [hc])]
      exact ih'.2 [c]
    · intro cur
      rw [sentenceScanAux, if_neg (by simp [hc])]
      exact ih'.2 (c :: cur)

theorem goodPara_ne_nil (p : List Char) (h : GoodPara p) : p ≠ [] := by
  obtain ⟨t, hl, -⟩ := h
  intro hnil
  rw [hnil] at hl
  simp [lastNonWs] at hl

theorem filter_not_ws_dropWhile (l : List Char) :
    (l.dropWhile isJsWs).filter (fun c => !isJsWs c)
      = l.filter fun c => !isJsWs c := by
  induction l with
  | nil => rfl
  | cons c rest ih =>
    rw [List.dropWhile_cons]
    split_ifs with hc
    · rw [ih, List.filter_cons]
      simp [hc]
    · rfl

theorem filter_not_ws_trimJs (l : List Char) :
    (trimJs l).filter (fun c => !isJsWs c) = l.filter fun c => !isJsWs c := by
  unfold trimJs
  rw [List.filter_reverse, filter_not_ws_dropWhile, List.filter_reverse,
    filter_not_ws_dropWhile]
  simp

theorem lastNonWs_trimJs (l : List Char) : lastNonWs (trimJs l) = lastNonWs l := by
  unfold lastNonWs
  rw [filter_not_ws_trimJs]

theorem goodPara_trimJs (p : List Char) (h : GoodPara p) : GoodPara (trimJs p) := by
  obtain ⟨t, hl, ht⟩ := h
  exact ⟨t, by rw [lastNonWs_trimJs]; exact hl, ht⟩

theorem trimJs_ne_nil_of_good (p : List Char) (h : GoodPara p) :
    trimJs p ≠ [] :=
  goodPara_ne_nil _ (goodPara_trimJs p h)

theorem lastNonWs_append (a b : List Char) (t : Char)
    (h : lastNonWs b = some t) : lastNonWs (a ++ b) = some t := by
  unfold lastNonWs at h ⊢
  rw [List.filter_append]
  rcases hb : b.filter (fun c => !isJsWs c) with _ | ⟨x, xs⟩
  · rw [hb] at h; simp at h
  · rw [hb] at h
    rw [List.getLast?_append, h]
    rfl

theorem goodPara_append (a b : List Char) (h : GoodPara b) :
    GoodPara (a ++ b) := by
  obtain ⟨t, hl, ht⟩ := h
  exact ⟨t, lastNonWs_append a b t hl, ht⟩

theorem accumStep_pos (st : List (List Char) × List Char × Nat) (m : List Char)
    (h : 75 < st.2.2 + (jsSplitWs (trimJs m)).length ∧ st.2.1 ≠ []) :
    accumStep st m
      = (st.1 ++ [trimJs st.2.1], m, (jsSplitWs (trimJs m)).length) := by
  unfold accumStep
  rw [if_pos h]

theorem accumStep_neg (st : List (List Char) × List Char × Nat) (m : List Char)
    (h : ¬ (75 < st.2.2 + (jsSplitWs (trimJs m)).length ∧ st.2.1 ≠ [])) :
    accumStep st m
      = (st.1, st.2.1 ++ m, st.2.2 + (jsSplitWs (trimJs m)).length) := by
  unfold accumStep
  rw [if_neg h]

/-- The accumulation loop preserves goodness of the pushed paragraphs and of
the running current paragraph. -/
theorem foldl_accum_good (sentences : List (List Char)) :
    ∀ (paras : List (List Char)) (cur : List Char) (wc : Nat),
      (∀ m ∈ sentences, GoodPara m) → (∀ p ∈ paras, GoodPara p) →
      (cur = [] ∨ GoodPara cur) →
      (∀ p ∈ (sentences.foldl accumStep (paras, cur, wc)).1, GoodPara p) ∧
      ((sentences.foldl accumStep (paras, cur, wc)).2.1 = [] ∨
        GoodPara (sentences.foldl accumStep (paras, cur, wc)).2.1) ∧
      ((sentences ≠ [] ∨ GoodPara cur) →
        GoodPara (sentences.foldl accumStep (paras, cur, wc)).2.1) := by
  induction sentences with
  | nil =>
    intro paras cur wc hs hp hc
    refine ⟨hp, hc, ?_⟩
    intro hne
    rcases hne with hne | hg
    · exact absurd rfl hne
    · exact hg
  | cons m rest ih =>
    intro paras cur wc hs hp hc
    have hm : GoodPara m := hs m (List.mem_cons_self m rest)
    have hs' : ∀ m' ∈ rest, GoodPara m' := fun m' hm' => hs m' (List.mem_cons_of_mem m hm')
    rw [List.foldl_cons]
    by_cases hcond : 75 < wc + (jsSplitWs (trimJs m)).length ∧ cur ≠ []
    · -- push the current paragraph, start a new one with this sentence
      rw [accumStep_pos (paras, cur, wc) m hcond]
      have hcur : GoodPara cur := by
        rcases hc with hc | hc
        · exact absurd hc hcond.2
        · exact hc
      have h1 := ih (paras ++ [trimJs cur]) m ((jsSplitWs (trimJs m)).length) hs'
        (by
          intro p hp'
          rcases List.mem_append.mp hp' with h | h
          · exact hp p h
          · rw [List.mem_singleton] at h
            subst h
            exact goodPara_trimJs cur hcur)
        (Or.inr hm)
      exact ⟨h1.1, h1.2.1, fun _ => h1.2.2 (Or.inr hm)⟩
    · -- append this sentence to the current paragraph
      rw [accumStep_neg (paras, cur, wc) m hcond]
      have hcur' : GoodPara (cur ++ m) := goodPara_append cur m hm
      have h1 := ih paras (cur ++ m) (wc + (jsSplitWs (trimJs m)).length) hs' hp (Or.inr hcur')
      exact ⟨h1.1, h1.2.1, fun _ => h1.2.2 (Or.inr hcur')⟩

/-- C10 (amended): whenever the sentence regex finds at least one match,
every paragraph returned by `intelligentSplit` is nonempty and its last
non-whitespace character is `.`, `!` or `?` — only matched, fully terminated
sentence text is kept, so an unterminated trailing fragment is dropped, as on
`"One. Two"` where the result is exactly `["One."]` and `Two` is gone.  When
the input contains no terminator at all and at least one non-whitespace
character, the whole trimmed text is returned as the single paragraph
(whitespace-only input is instead returned untrimmed). -/
theorem claim_C10_intelligent_split (t₁ t₂ : List Char)
    (h₁ : sentenceScan t₁ ≠ [])
    (h₂ : ∀ c ∈ t₂, isTerm c = false)
    (h₂' : ∃ c ∈ t₂, isJsWs c = false) :
    (∀ p ∈ intelligentSplit t₁,
      p ≠ [] ∧ ∃ t, lastNonWs p = some t ∧ isTerm t = true) ∧
    intelligentSplit "One. Two".toList = ["One.".toList] ∧
    intelligentSplit t₂ = [trimJs t₂] := by
  refine ⟨?_, by decide, ?_⟩
  · intro p hp
    simp only [intelligentSplit] at hp
    rw [if_neg h₁] at hp
    have hfold := foldl_accum_good (sentenceScan t₁) [] [] 0
      (sentenceScan_good t₁) (by simp) (Or.inl rfl)
    have hgcur := hfold.2.2 (Or.inl h₁)
    have htrim := trimJs_ne_nil_of_good _ hgcur
    rw [if_pos htrim] at hp
    have hlen : 0 < (((sentenceScan t₁).foldl accumStep ([], [], 0)).1
        ++ [trimJs ((sentenceScan t₁).foldl accumStep ([], [], 0)).2.1]).length := by
      simp
    rw [if_pos hlen] at hp
    rcases List.mem_append.mp hp with h | h
    · have hg := hfold.1 p h
      exact ⟨goodPara_ne_nil p hg, hg⟩
    · rw [List.mem_singleton] at h
      subst h
      have hg := goodPara_trimJs _ hgcur
      exact ⟨goodPara_ne_nil _ hg, hg⟩
  · have hscan : sentenceScan t₂ = [] :=
      (sentenceScanAux_no_term t₂ h₂).1 []
    obtain ⟨c, hc, hcw⟩ := h₂'
    have htrim : trimJs t₂ ≠ [] := by
      intro hnil
      have := mem_trimJs t₂ c hc hcw
      rw [hnil] at this
      simp at this
    simp only [intelligentSplit]
    rw [if_pos hscan]
    rw [List.foldl_cons, accumStep_neg ([], [], 0) t₂ (by simp), List.foldl_nil]
    simp only [List.nil_append]
    rw [if_pos htrim]
    simp

/-- Witness for C10: `"One. Two"` has a matched sentence, and `"abc"` has no
terminator but a non-whitespace character. -/
theorem claim_C10_intelligent_split_witness :
    (sentenceScan "One. Two".toList ≠ [] ∧
     (∀ c ∈ "abc".toList, isTerm c = false) ∧
     (∃ c ∈ "abc".toList, isJsWs c = false)) ∧
    intelligentSplit "abc".toList = [trimJs "abc".toList] :=
  ⟨⟨by decide, by decide, by decide⟩,
   (claim_C10_intelligent_split "One. Two".toList "abc".toList
     (by decide) (by decide) (by decide)).2.2⟩

/-- Counterexample to C10 as stated: on whitespace-only input (no terminator
at all), `intelligentSplit` does not return the trimmed text: it returns the
raw untrimmed input `[" "]`, while the trimmed text is empty. -/
theorem claim_C10_counterexample :
    (∀ c ∈ " ".toList, isTerm c = false) ∧
    intelligentSplit " ".toList = [" ".toList] ∧
    trimJs " ".toList = [] ∧
    intelligentSplit " ".toList ≠ [trimJs " ".toList] := by
  refine ⟨by decide, by decide, by decide, by decide⟩

end Fasty
